import Mathlib

/-!
Shallow embedding of `src/caffe/parallel.cpp` (hipCaffe multi-GPU
synchronous data-parallel training core) and proofs about it.

Modelling conventions:
* `Dtype` (float/double) is modelled by `ℚ`; device buffers are total
  functions `ℕ → ℚ` indexed by element offset from the buffer base.
* Device pointers are modelled by natural-number offsets from a flat
  address space, so `ptr - buffer` is plain subtraction.
* Loops with an early-exit / erase pattern are modelled structurally with
  a fuel argument equal to an upper bound on the iteration count (the
  loop index grows by one per iteration and the vector never grows, so
  the entry length bounds the number of iterations); this keeps every
  definition computable by kernel reduction.
* A C++ out-of-bounds `vector::operator[]` read (undefined behaviour) is
  made observable by returning `none` / an explicit error value.
-/

namespace Caffe

/-! ## Flat buffer manager: `apply_buffers` and `total_size` -/

/-- Walk of the pointer assignment loop of `apply_buffers`
(`parallel.cpp:28-53`): starting from `ptr = buffer`, each blob `i` is
bound to the current `ptr` and `ptr` advances by `blobs[i]->count()`.
Returns the list of pointers assigned to the blobs together with the
final value of `ptr`. -/
def applyLoop : List ℕ → ℕ → List ℕ × ℕ
  | [], ptr => ([], ptr)
  | c :: rest, ptr =>
      let r := applyLoop rest (ptr + c)
      (ptr :: r.1, r.2)

/-- Embedding of `apply_buffers` (`parallel.cpp:26-56`) over the blob
element counts: the switch body only differs in which storage pointer is
rebound (or copied), so the pointer arithmetic and the final
`CHECK_EQ(total_size, ptr == buffer ? 1 : ptr - buffer)` are common to
all five ops. First component: the pointer bound to each blob; second
component: whether the final CHECK passes (false models an abort). -/
def apply_buffers (counts : List ℕ) (buffer total : ℕ) : List ℕ × Bool :=
  let r := applyLoop counts buffer
  (r.1, decide (total = if r.2 = buffer then 1 else r.2 - buffer))

/-- Embedding of `total_size` (`parallel.cpp:59-67`): sum of the blob
counts, forced to at least one element so `hipMalloc` does not get a
zero size. -/
def total_size (counts : List ℕ) : ℕ :=
  let size := counts.foldl (fun s c => s + c) 0
  if size > 0 then size else 1

theorem applyLoop_snd (counts : List ℕ) : ∀ ptr : ℕ,
    (applyLoop counts ptr).2 = ptr + counts.sum := by
  induction counts with
  | nil => intro ptr; simp [applyLoop]
  | cons c rest ih =>
      intro ptr
      simp [applyLoop, ih (ptr + c)]
      ring

theorem applyLoop_fst_length (counts : List ℕ) : ∀ ptr : ℕ,
    (applyLoop counts ptr).1.length = counts.length := by
  induction counts with
  | nil => intro ptr; simp [applyLoop]
  | cons c rest ih => intro ptr; simp [applyLoop, ih (ptr + c)]

theorem applyLoop_fst_get (counts : List ℕ) : ∀ ptr i, i < counts.length →
    (applyLoop counts ptr).1.getD i 0 = ptr + (counts.take i).sum := by
  induction counts with
  | nil => intro ptr i h; simp at h
  | cons c rest ih =>
      intro ptr i h
      cases i with
      | zero => simp [applyLoop]
      | succ i =>
          simp only [applyLoop, List.getD_cons_succ, List.take_succ_cons,
            List.sum_cons]
          rw [ih (ptr + c) i (by simpa using h)]
          ring

theorem foldl_add_eq_sum (l : List ℕ) : ∀ a : ℕ,
    l.foldl (fun s c => s + c) a = a + l.sum := by
  induction l with
  | nil => intro a; simp
  | cons c rest ih => intro a; simp [ih (a + c)]; ring

/-- Claim C6: after `apply_buffers` runs with any rebind operation over
`buffer`, the storage pointer of the i-th blob equals `buffer` plus the
sum of the element counts of blobs `0..i-1`. -/
theorem apply_buffers_rebind_offsets (counts : List ℕ) (buffer total i : ℕ)
    (h : i < counts.length) :
    (apply_buffers counts buffer total).1.getD i 0 =
      buffer + (counts.take i).sum := by
  unfold apply_buffers
  exact applyLoop_fst_get counts buffer i h

/-- Witness for C6 at a concrete input: blobs of counts 2 and 3 bound at
base 10, the second blob lands at offset 12. -/
theorem apply_buffers_rebind_offsets_witness :
    (apply_buffers [2, 3] 10 5).1.getD 1 0 = 10 + ([2, 3].take 1).sum :=
  apply_buffers_rebind_offsets [2, 3] 10 5 1 (by decide)

/-- Claim C7: the flat buffer length equals `max(1, Σ count_i)`; in
particular it is 1 when the list is empty or all counts are zero. -/
theorem total_size_eq_max (counts : List ℕ) :
    total_size counts = max 1 counts.sum := by
  unfold total_size
  rw [foldl_add_eq_sum counts 0]
  simp only [Nat.zero_add]
  rcases Nat.eq_zero_or_pos counts.sum with h | h
  · simp [h]
  · rw [if_pos h]
    omega

/-- Counterexample to claim C8 as stated: a single blob of count 0 with
`total = 1` completes the final CHECK (the walked pointer never moved,
so the CHECK compares `total` against 1), yet the count sum (0) differs
from `total` and the blob list is not empty. -/
theorem apply_buffers_check_counterexample :
    (apply_buffers [0] 7 1).2 = true ∧
    ¬ (([0] : List ℕ).sum = 1 ∨ (1 = 1 ∧ ([0] : List ℕ) = [])) := by
  constructor
  · rfl
  · decide

/-- Claim C8 amended: `apply_buffers` completes without aborting iff the
sum of element counts equals `total` and is nonzero, or `total = 1` and
the sum of counts is zero (in particular when the list is empty, but
also for a nonempty list of all-zero counts). -/
theorem apply_buffers_check_iff (counts : List ℕ) (buffer total : ℕ) :
    (apply_buffers counts buffer total).2 = true ↔
      (counts.sum = total ∧ 0 < counts.sum) ∨
      (total = 1 ∧ counts.sum = 0) := by
  unfold apply_buffers
  simp only [decide_eq_true_eq]
  rw [applyLoop_snd counts buffer]
  rcases Nat.eq_zero_or_pos counts.sum with h | h
  · simp [h]
  · have hne : buffer + counts.sum ≠ buffer := by omega
    rw [if_neg hne]
    omega

/-! ## Scoped device binding (C9)

The HIP calls issued by `GPUParams::GPUParams`, `P2PSync::P2PSync` and
`P2PSync::~P2PSync` are embedded as straight-line traces of runtime
operations; the only operation that changes the thread-local active
device is `setDevice`. HIP_CHECK failures abort the process, so the only
return path of each function is the fall-through one; the branch
structure (has a parent or not, peer access available or not) is
captured by boolean parameters. -/

/-- Accelerator runtime operations appearing in the three functions that
temporarily change the active device. -/
inductive HipOp where
  | setDevice (d : ℤ)
  | malloc
  | free
  | enablePeer (p : ℤ)
  | disablePeer (p : ℤ)
  | kernel

/-- Thread-local active device after executing a trace of runtime
operations: only `setDevice` changes it. -/
def runDevice (initial : ℤ) (ops : List HipOp) : ℤ :=
  ops.foldl (fun dev op => match op with | HipOp.setDevice d => d | _ => dev)
    initial

/-- Trace of `GPUParams::GPUParams` (`parallel.cpp:77-99`) after
`hipGetDevice(&initial_device)`: set the target device, allocate and
fill `data_`, allocate and zero `diff_`, restore the initial device. -/
def gpuParamsCtorOps (initial device : ℤ) : List HipOp :=
  [HipOp.setDevice device, HipOp.malloc, HipOp.kernel, HipOp.malloc,
   HipOp.kernel, HipOp.setDevice initial]

/-- Trace of the `P2PSync` constructor body (`parallel.cpp:202-247`)
after `hipGetDevice(&initial_device)`: set own device; if there is a
parent, optionally enable peer access, then switch to the parent device
to allocate `parent_grads_` and switch back; finally restore the initial
device. -/
def p2pSyncCtorOps (initial device peer : ℤ) (hasParent access : Bool) :
    List HipOp :=
  [HipOp.setDevice device] ++
  (if hasParent then
    (if access then [HipOp.enablePeer peer] else []) ++
    [HipOp.setDevice peer, HipOp.malloc, HipOp.setDevice device]
  else []) ++
  [HipOp.setDevice initial]

/-- Trace of the `P2PSync` destructor (`parallel.cpp:249-269`) after
`hipGetDevice(&initial_device)`: set own device; if there is a parent,
free `parent_grads_` and optionally disable peer access; restore the
initial device. -/
def p2pSyncDtorOps (initial self peer : ℤ) (hasParent access : Bool) :
    List HipOp :=
  [HipOp.setDevice self] ++
  (if hasParent then
    [HipOp.free] ++ (if access then [HipOp.disablePeer peer] else [])
  else []) ++
  [HipOp.setDevice initial]

/-- Claim C9: on every return path of the `GPUParams` constructor, the
`P2PSync` constructor and the `P2PSync` destructor, the thread's active
device id equals its value on entry, for every combination of the
parent/peer-access branches. -/
theorem device_saved_and_restored (initial device peer self : ℤ)
    (hasParent access : Bool) :
    runDevice initial (gpuParamsCtorOps initial device) = initial ∧
    runDevice initial (p2pSyncCtorOps initial device peer hasParent access) =
      initial ∧
    runDevice initial (p2pSyncDtorOps initial self peer hasParent access) =
      initial := by
  refine ⟨rfl, ?_, ?_⟩ <;>
    cases hasParent <;> cases access <;>
      simp [p2pSyncCtorOps, p2pSyncDtorOps, runDevice]

/-! ## GPUParams buffer initialization (C10) -/

/-- Embedding of `caffe_copy(size, src, ptr)` writing a host-side blob
value list into a device buffer at offset `off`. -/
def writeAt (buf : ℕ → ℚ) (off : ℕ) (src : List ℚ) : ℕ → ℚ :=
  fun k => if off ≤ k ∧ k - off < src.length then src.getD (k - off) 0
    else buf k

/-- Embedding of `caffe_gpu_set(n, v, buf)`: set the first `n` elements
of the buffer to `v`. -/
def gpu_set (n : ℕ) (v : ℚ) (buf : ℕ → ℚ) : ℕ → ℚ :=
  fun k => if k < n then v else buf k

/-- Embedding of the `copy` case of `apply_buffers` as used by the
`GPUParams` constructor (`parallel.cpp:90`): each blob, given by its
current host-side values, is copied into the `data_` buffer at
successive offsets. -/
def applyCopy : List (List ℚ) → (ℕ → ℚ) → ℕ → (ℕ → ℚ)
  | [], buf, _ => buf
  | b :: rest, buf, off => applyCopy rest (writeAt buf off b) (off + b.length)

theorem applyCopy_below (blobs : List (List ℚ)) : ∀ buf off k, k < off →
    applyCopy blobs buf off k = buf k := by
  induction blobs with
  | nil => intro buf off k hk; rfl
  | cons b rest ih =>
      intro buf off k hk
      rw [applyCopy, ih (writeAt buf off b) (off + b.length) k (by omega)]
      unfold writeAt
      rw [if_neg (by omega)]

theorem applyCopy_get (blobs : List (List ℚ)) : ∀ buf off k,
    k < (blobs.map List.length).sum →
    applyCopy blobs buf off (off + k) = blobs.flatten.getD k 0 := by
  induction blobs with
  | nil => intro buf off k hk; simp at hk
  | cons b rest ih =>
      intro buf off k hk
      rw [applyCopy]
      by_cases hb : k < b.length
      · rw [applyCopy_below rest _ (off + b.length) (off + k) (by omega)]
        unfold writeAt
        rw [if_pos (by omega)]
        simp only [Nat.add_sub_cancel_left, List.flatten_cons]
        rw [List.getD_append _ _ _ _ hb]
      · have hk2 : k - b.length < (rest.map List.length).sum := by
          simp only [List.map_cons, List.sum_cons] at hk
          omega
        have := ih (writeAt buf off b) (off + b.length) (k - b.length) hk2
        have harith : off + b.length + (k - b.length) = off + k := by omega
        rw [harith] at this
        rw [this]
        simp only [List.flatten_cons]
        rw [List.getD_append_right _ _ _ _ (by omega)]

/-- Claim C10: after the `GPUParams` constructor returns, the `data_`
buffer holds the concatenation of the current host-side values of the
learnable blobs in list order, and every one of the `size_` elements of
the `diff_` buffer is zero, whatever uninitialized contents `hipMalloc`
returned for either buffer. -/
theorem gpuparams_init (blobs : List (List ℚ)) (dataInit diffInit : ℕ → ℚ) :
    (∀ k, k < (blobs.map List.length).sum →
      applyCopy blobs dataInit 0 k = blobs.flatten.getD k 0) ∧
    (∀ k, k < total_size (blobs.map List.length) →
      gpu_set (total_size (blobs.map List.length)) 0 diffInit k = 0) := by
  constructor
  · intro k hk
    have := applyCopy_get blobs dataInit 0 k hk
    simpa using this
  · intro k hk
    unfold gpu_set
    rw [if_pos hk]

/-- Witness for C10 at a concrete input: blobs with host values
`[1, 2]` and `[3]`, arbitrary initial buffer contents. -/
theorem gpuparams_init_witness :
    applyCopy [[1, 2], [3]] (fun _ => 5) 0 2 = ([[1, 2], [3]] :
      List (List ℚ)).flatten.getD 2 0 ∧
    gpu_set (total_size ([[1, 2], [3]].map List.length)) 0 (fun _ => 7) 1
      = 0 :=
  ⟨(gpuparams_init [[1, 2], [3]] (fun _ => 5) (fun _ => 7)).1 2 (by decide),
   (gpuparams_init [[1, 2], [3]] (fun _ => 5) (fun _ => 7)).2 1 (by decide)⟩

/-! ## Topology planner: `DevicePair::compute` (C2, C3, C5)

`DevicePair::compute` (`parallel.cpp:117-198`) works on a `remaining`
vector initialized to the device list. The board-local grouping phase
is entirely commented out in the source (the loop body does nothing but
query device properties), so it has no effect on `remaining` or `pairs`
and is omitted from the embedding. The P2P phase and the fallback phase
are loops of the shape `for d in 0..ceil(log2(remaining.size()))` over a
sweep `for i in 0..remaining.size()` that may erase one element per
step; each sweep is embedded with a structural fuel argument set to the
sweep-entry length of `remaining`, which bounds the iteration count
because `i` grows by one per iteration and `remaining` never grows. -/

/-- Output pair of the planner: `parent = -1` marks the root. -/
structure DevicePair where
  parent : ℤ
  device : ℤ
deriving DecidableEq

/-- Errors with which the embedded planner can stop: an out-of-bounds
`remaining[i+1]` read (undefined behaviour in the C++ source) or a
failed CHECK (process abort in the source). -/
inductive ComputeError where
  | oobAccess
  | checkFail
deriving DecidableEq

/-- Structural helper for `clog2`; the fuel is an upper bound on the
number of halvings. -/
def clog2Aux : ℕ → ℕ → ℕ
  | 0, _ => 0
  | fuel + 1, n => if n ≤ 1 then 0 else clog2Aux fuel ((n + 1) / 2) + 1

/-- Ceiling of the base-2 logarithm, the value of
`static_cast<int>(ceil(log2((float)n)))` for the device counts in
question (for `n = 0` the source casts `-inf`, and the resulting loop
bound produces zero iterations, matching `clog2 0 = 0`). -/
def clog2 (n : ℕ) : ℕ := clog2Aux n n

theorem clog2Aux_eq_clog : ∀ fuel n, n ≤ fuel → clog2Aux fuel n = Nat.clog 2 n := by
  intro fuel
  induction fuel with
  | zero =>
      intro n hn
      interval_cases n
      simp [clog2Aux, Nat.clog]
  | succ f ih =>
      intro n hn
      by_cases h1 : n ≤ 1
      · rw [clog2Aux, if_pos h1, Nat.clog_of_right_le_one h1]
      · have hr : Nat.clog 2 n = Nat.clog 2 ((n + 2 - 1) / 2) + 1 :=
          Nat.clog_of_two_le (by norm_num) (by omega)
        rw [clog2Aux, if_neg h1, ih ((n + 1) / 2) (by omega), hr]
        norm_num

theorem clog2_eq_clog (n : ℕ) : clog2 n = Nat.clog 2 n :=
  clog2Aux_eq_clog n n le_rfl

/-- Inner `j` loop of the P2P phase (`parallel.cpp:153-163`): scan the
part of `remaining` after position `i` for the first device `b` with
`hipDeviceCanAccessPeer(remaining[i], b)`; return its relative index and
value. -/
def findPeerIdx (access : ℤ → ℤ → Bool) (a : ℤ) : List ℤ → Option (ℕ × ℤ)
  | [] => none
  | b :: rest =>
      if access a b then some (0, b)
      else
        match findPeerIdx access a rest with
        | some (j, c) => some (j + 1, c)
        | none => none

/-- One sweep `for i` of the P2P phase (`parallel.cpp:152-164`): at each
`i`, if some later device is peer-accessible from `remaining[i]`, emit
the pair and erase that device, then advance `i`. `fuel` bounds the
number of iterations; callers pass the sweep-entry length of
`remaining`, which the loop can never exceed. -/
def p2pPass (access : ℤ → ℤ → Bool) : ℕ → List ℤ → ℕ → List DevicePair →
    List ℤ × List DevicePair
  | 0, remaining, _, pairs => (remaining, pairs)
  | fuel + 1, remaining, i, pairs =>
      if h : i < remaining.length then
        match findPeerIdx access (remaining.get ⟨i, h⟩) (remaining.drop (i + 1))
          with
        | some (jrel, b) =>
            p2pPass access fuel (remaining.eraseIdx (i + 1 + jrel)) (i + 1)
              (pairs ++ [DevicePair.mk (remaining.get ⟨i, h⟩) b])
        | none => p2pPass access fuel remaining (i + 1) pairs
      else (remaining, pairs)

/-- Outer `d` loop of the P2P phase (`parallel.cpp:151`), running a
fixed number of sweeps computed before the loop. -/
def p2pPhase (access : ℤ → ℤ → Bool) : ℕ → List ℤ → List DevicePair →
    List ℤ × List DevicePair
  | 0, remaining, pairs => (remaining, pairs)
  | d + 1, remaining, pairs =>
      let r := p2pPass access remaining.length remaining 0 pairs
      p2pPhase access d r.1 r.2

/-- One sweep `for i` of the fallback phase (`parallel.cpp:175-180`):
pair `remaining[i]` with `remaining[i + 1]` and erase the latter. The
read of `remaining[i + 1]` is not guarded by the loop condition
`i < remaining.size()`; when `i + 1` is past the end the source commits
undefined behaviour, embedded here as `none`. -/
def fallbackPass : ℕ → List ℤ → ℕ → List DevicePair →
    Option (List ℤ × List DevicePair)
  | 0, remaining, _, pairs => some (remaining, pairs)
  | fuel + 1, remaining, i, pairs =>
      if h : i < remaining.length then
        match remaining[i + 1]? with
        | none => none
        | some b =>
            fallbackPass fuel (remaining.eraseIdx (i + 1)) (i + 1)
              (pairs ++ [DevicePair.mk (remaining.get ⟨i, h⟩) b])
      else some (remaining, pairs)

/-- Outer `d` loop of the fallback phase (`parallel.cpp:174`). -/
def fallbackPhase : ℕ → List ℤ → List DevicePair →
    Option (List ℤ × List DevicePair)
  | 0, remaining, pairs => some (remaining, pairs)
  | d + 1, remaining, pairs =>
      match fallbackPass remaining.length remaining 0 pairs with
      | none => none
      | some r => fallbackPhase d r.1 r.2

/-- Embedding of `DevicePair::compute` (`parallel.cpp:117-198`). The
peer-accessibility oracle `access` stands for `hipDeviceCanAccessPeer`.
After the phases, the source CHECKs that exactly one device remains,
prepends the root pair `(-1, root)`, and CHECKs the pair-list size, that
no pair is its own parent, and that all pair devices are distinct. -/
def DevicePair.compute (devices : List ℤ) (access : ℤ → ℤ → Bool) :
    Except ComputeError (List DevicePair) :=
  let r1 := p2pPhase access (clog2 devices.length) devices []
  match fallbackPhase (clog2 r1.1.length) r1.1 r1.2 with
  | none => Except.error ComputeError.oobAccess
  | some (rem, tail) =>
      if rem.length = 1 then
        let pairs := DevicePair.mk (-1) (rem.headD 0) :: tail
        if pairs.length = devices.length ∧
            (∀ p ∈ pairs, p.parent ≠ p.device) ∧
            pairs.Pairwise (fun p q => p.device ≠ q.device) then
          Except.ok pairs
        else Except.error ComputeError.checkFail
      else Except.error ComputeError.checkFail

/-! ## Planner invariants (C2) -/

theorem cons_eraseIdx_multiset (l : List ℤ) : ∀ j : ℕ, j < l.length →
    (l.getD j 0 ::ₘ (l.eraseIdx j : Multiset ℤ)) = (l : Multiset ℤ) := by
  induction l with
  | nil => intro j h; simp at h
  | cons a l ih =>
      intro j h
      cases j with
      | zero => rfl
      | succ j =>
          have hj : j < l.length := by simpa using h
          calc (l.getD j 0 ::ₘ ((a :: l).eraseIdx (j + 1) : Multiset ℤ))
              = l.getD j 0 ::ₘ a ::ₘ (l.eraseIdx j : Multiset ℤ) := rfl
            _ = a ::ₘ (l.getD j 0 ::ₘ (l.eraseIdx j : Multiset ℤ)) :=
                Multiset.cons_swap _ _ _
            _ = a ::ₘ (l : Multiset ℤ) := by rw [ih j hj]

theorem findPeerIdx_spec (access : ℤ → ℤ → Bool) (a : ℤ) :
    ∀ (l : List ℤ) (j : ℕ) (c : ℤ), findPeerIdx access a l = some (j, c) →
      j < l.length ∧ l.getD j 0 = c := by
  intro l
  induction l with
  | nil => intro j c h; simp [findPeerIdx] at h
  | cons b rest ih =>
      intro j c h
      rw [findPeerIdx] at h
      by_cases hb : access a b
      · rw [if_pos hb] at h
        simp at h
        obtain ⟨h1, h2⟩ := h
        subst h1; subst h2
        exact ⟨by simp, rfl⟩
      · rw [if_neg hb] at h
        cases hrec : findPeerIdx access a rest with
        | none => rw [hrec] at h; exact absurd h (by simp)
        | some jc =>
            rw [hrec] at h
            obtain ⟨jr, cr⟩ := jc
            simp at h
            obtain ⟨h1, h2⟩ := h
            obtain ⟨hlt, hget⟩ := ih jr cr hrec
            subst h1; subst h2
            exact ⟨by simpa using hlt, by simpa using hget⟩

theorem getD_drop (l : List ℤ) (n j : ℕ) (h : n + j < l.length) :
    (l.drop n).getD j 0 = l.getD (n + j) 0 := by
  rw [List.getD_eq_getElem?_getD, List.getD_eq_getElem?_getD,
    List.getElem?_drop]

/-- Planner loop invariant: the devices still in `remaining` together
with the devices already emitted into `pairs` form exactly the input
device multiset, and every emitted parent is an input device. -/
def PlannerInv (devices rem : List ℤ) (pairs : List DevicePair) : Prop :=
  ((rem : Multiset ℤ) + (pairs.map DevicePair.device : Multiset ℤ) =
    (devices : Multiset ℤ)) ∧
  ∀ p ∈ pairs, p.parent ∈ devices

theorem plannerInv_mem_rem {devices rem : List ℤ} {pairs : List DevicePair}
    (h : PlannerInv devices rem pairs) {x : ℤ} (hx : x ∈ rem) :
    x ∈ devices := by
  have hle : (rem : Multiset ℤ) ≤ (devices : Multiset ℤ) := by
    rw [← h.1]; exact Multiset.le_add_right _ _
  have := Multiset.mem_of_le hle (by simpa using hx)
  simpa using this

theorem plannerInv_emit {devices rem : List ℤ} {pairs : List DevicePair}
    (h : PlannerInv devices rem pairs) {j : ℕ} (hj : j < rem.length)
    {a : ℤ} (ha : a ∈ rem) :
    PlannerInv devices (rem.eraseIdx j)
      (pairs ++ [DevicePair.mk a (rem.getD j 0)]) := by
  constructor
  · have hc := cons_eraseIdx_multiset rem j hj
    have hmap : (pairs ++ [DevicePair.mk a (rem.getD j 0)]).map
        DevicePair.device = pairs.map DevicePair.device ++ [rem.getD j 0] :=
      by simp
    rw [hmap, ← Multiset.coe_add]
    calc ((rem.eraseIdx j : List ℤ) : Multiset ℤ) +
          (((pairs.map DevicePair.device : List ℤ) : Multiset ℤ) +
            (([rem.getD j 0] : List ℤ) : Multiset ℤ))
        = (rem.getD j 0 ::ₘ (rem.eraseIdx j : Multiset ℤ)) +
          ((pairs.map DevicePair.device : List ℤ) : Multiset ℤ) := by
          rw [← Multiset.singleton_add]
          have : (([rem.getD j 0] : List ℤ) : Multiset ℤ) =
              ({rem.getD j 0} : Multiset ℤ) := rfl
          rw [this]
          abel
      _ = ((rem : List ℤ) : Multiset ℤ) +
          ((pairs.map DevicePair.device : List ℤ) : Multiset ℤ) := by rw [hc]
      _ = ((devices : List ℤ) : Multiset ℤ) := h.1
  · intro p hp
    rcases List.mem_append.mp hp with hp | hp
    · exact h.2 p hp
    · have : p = DevicePair.mk a (rem.getD j 0) := by simpa using hp
      subst this
      exact plannerInv_mem_rem h ha

theorem p2pPass_inv (access : ℤ → ℤ → Bool) (devices : List ℤ) :
    ∀ (fuel : ℕ) (rem : List ℤ) (i : ℕ) (pairs : List DevicePair),
    PlannerInv devices rem pairs →
    PlannerInv devices (p2pPass access fuel rem i pairs).1
      (p2pPass access fuel rem i pairs).2 := by
  intro fuel
  induction fuel with
  | zero => intro rem i pairs h; exact h
  | succ f ih =>
      intro rem i pairs h
      rw [p2pPass]
      by_cases hi : i < rem.length
      · rw [dif_pos hi]
        cases hfind : findPeerIdx access (rem.get ⟨i, hi⟩) (rem.drop (i + 1))
          with
        | none => exact ih rem (i + 1) pairs h
        | some jc =>
            obtain ⟨jrel, b⟩ := jc
            obtain ⟨hlt, hget⟩ := findPeerIdx_spec access _ _ _ _ hfind
            have hlen : i + 1 + jrel < rem.length := by
              rw [List.length_drop] at hlt
              omega
            have hb : rem.getD (i + 1 + jrel) 0 = b := by
              rw [← getD_drop rem (i + 1) jrel hlen]
              exact hget
            have hmem : rem.get ⟨i, hi⟩ ∈ rem := rem.get_mem i hi
            have := plannerInv_emit h hlen hmem
            rw [hb] at this
            exact ih _ (i + 1) _ this
      · rw [dif_neg hi]
        exact h

theorem p2pPhase_inv (access : ℤ → ℤ → Bool) (devices : List ℤ) :
    ∀ (d : ℕ) (rem : List ℤ) (pairs : List DevicePair),
    PlannerInv devices rem pairs →
    PlannerInv devices (p2pPhase access d rem pairs).1
      (p2pPhase access d rem pairs).2 := by
  intro d
  induction d with
  | zero => intro rem pairs h; exact h
  | succ k ih =>
      intro rem pairs h
      exact ih _ _ (p2pPass_inv access devices rem.length rem 0 pairs h)

theorem fallbackPass_inv (devices : List ℤ) :
    ∀ (fuel : ℕ) (rem : List ℤ) (i : ℕ) (pairs : List DevicePair)
      (rem2 : List ℤ) (pairs2 : List DevicePair),
    PlannerInv devices rem pairs →
    fallbackPass fuel rem i pairs = some (rem2, pairs2) →
    PlannerInv devices rem2 pairs2 := by
  intro fuel
  induction fuel with
  | zero =>
      intro rem i pairs rem2 pairs2 h heq
      rw [fallbackPass] at heq
      simp at heq
      rw [← heq.1, ← heq.2]
      exact h
  | succ f ih =>
      intro rem i pairs rem2 pairs2 h heq
      rw [fallbackPass] at heq
      by_cases hi : i < rem.length
      · rw [dif_pos hi] at heq
        cases hb : rem[i + 1]? with
        | none => rw [hb] at heq; exact absurd heq (by simp)
        | some b =>
            rw [hb] at heq
            have hlen : i + 1 < rem.length := by
              have := List.getElem?_eq_some_iff.mp hb
              obtain ⟨hlt, _⟩ := this
              exact hlt
            have hbval : rem.getD (i + 1) 0 = b := by
              rw [List.getD_eq_getElem?_getD, hb]
              rfl
            have hmem : rem.get ⟨i, hi⟩ ∈ rem := rem.get_mem i hi
            have hinv := plannerInv_emit h hlen hmem
            rw [hbval] at hinv
            exact ih _ (i + 1) _ rem2 pairs2 hinv heq
      · rw [dif_neg hi] at heq
        simp at heq
        rw [← heq.1, ← heq.2]
        exact h

theorem fallbackPhase_inv (devices : List ℤ) :
    ∀ (d : ℕ) (rem : List ℤ) (pairs : List DevicePair)
      (rem2 : List ℤ) (pairs2 : List DevicePair),
    PlannerInv devices rem pairs →
    fallbackPhase d rem pairs = some (rem2, pairs2) →
    PlannerInv devices rem2 pairs2 := by
  intro d
  induction d with
  | zero =>
      intro rem pairs rem2 pairs2 h heq
      rw [fallbackPhase] at heq
      simp at heq
      rw [← heq.1, ← heq.2]
      exact h
  | succ k ih =>
      intro rem pairs rem2 pairs2 h heq
      rw [fallbackPhase] at heq
      cases hp : fallbackPass rem.length rem 0 pairs with
      | none => rw [hp] at heq; exact absurd heq (by simp)
      | some r =>
          rw [hp] at heq
          exact ih r.1 r.2 rem2 pairs2
            (fallbackPass_inv devices rem.length rem 0 pairs r.1 r.2 h
              (by rw [hp]))
            heq

theorem length_one_eq_headD (rem : List ℤ) (h : rem.length = 1) :
    rem = [rem.headD 0] := by
  cases rem with
  | nil => simp at h
  | cons a t =>
      cases t with
      | nil => rfl
      | cons b u => simp at h

/-- Structure of every successful `DevicePair::compute` output, derived
from the loop invariants and the source's own final CHECKs. -/
theorem compute_ok_struct (devices : List ℤ) (access : ℤ → ℤ → Bool)
    (pairs : List DevicePair)
    (hok : DevicePair.compute devices access = Except.ok pairs) :
    (pairs.headD (DevicePair.mk 0 0)).parent = -1 ∧
    pairs.length = devices.length ∧
    (pairs.map DevicePair.device).Perm devices ∧
    (∀ p ∈ pairs, p.parent ≠ p.device) ∧
    (∀ p ∈ pairs, p.parent ≠ -1 → ∃ q ∈ pairs, q.device = p.parent) ∧
    pairs.Pairwise (fun p q => p.device ≠ q.device) := by
  have hinv0 : PlannerInv devices devices [] := by
    constructor
    · simp
    · intro p hp
      simp at hp
  have hinv1 := p2pPhase_inv access devices (clog2 devices.length) devices []
    hinv0
  simp only [DevicePair.compute] at hok
  split at hok
  · exact absurd hok (by simp)
  · next rem tail heq =>
      have hinv2 := fallbackPhase_inv devices _ _ _ rem tail hinv1 heq
      split at hok
      · next h1 =>
          split at hok
          · next hchecks =>
              obtain ⟨hlen, hself, hdist⟩ := hchecks
              have hpairs : DevicePair.mk (-1) (rem.headD 0) :: tail = pairs :=
                by simpa using hok
              subst hpairs
              have hrem : rem = [rem.headD 0] := length_one_eq_headD rem h1
              have hperm : ((DevicePair.mk (-1) (rem.headD 0) :: tail).map
                  DevicePair.device).Perm devices := by
                apply Multiset.coe_eq_coe.mp
                have : ((rem : List ℤ) : Multiset ℤ) =
                    ({rem.headD 0} : Multiset ℤ) := by rw [hrem]; rfl
                rw [← hinv2.1, this, List.map_cons, Multiset.singleton_add]
                rfl
              refine ⟨rfl, hlen, hperm, hself, ?_, hdist⟩
              intro p hp hproot
              rcases List.mem_cons.mp hp with hp | hp
              · subst hp
                exact absurd rfl hproot
              · have hpd : p.parent ∈ devices := hinv2.2 p hp
                have : p.parent ∈ (DevicePair.mk (-1) (rem.headD 0) ::
                    tail).map DevicePair.device := hperm.mem_iff.mpr hpd
                obtain ⟨q, hq, hqd⟩ := List.mem_map.mp this
                exact ⟨q, hq, hqd⟩
          · exact absurd hok (by simp)
      · exact absurd hok (by simp)

/-- Claim C2: whenever `DevicePair::compute` returns a pair list for a
non-empty device list (all its CHECKs passing), that list satisfies:
`pairs[0].parent = -1`; `|pairs| = |devices|`; the multiset of pair
devices is a permutation of the input devices; no pair is its own
parent; and every parent value other than -1 occurs as the device of
some pair. -/
theorem compute_tree_wellformed (devices : List ℤ) (access : ℤ → ℤ → Bool)
    (pairs : List DevicePair) (hne : devices ≠ [])
    (hok : DevicePair.compute devices access = Except.ok pairs) :
    (pairs.headD (DevicePair.mk 0 0)).parent = -1 ∧
    pairs.length = devices.length ∧
    (pairs.map DevicePair.device).Perm devices ∧
    (∀ p ∈ pairs, p.parent ≠ p.device) ∧
    (∀ p ∈ pairs, p.parent ≠ -1 → ∃ q ∈ pairs, q.device = p.parent) := by
  obtain ⟨h1, h2, h3, h4, h5, _⟩ := compute_ok_struct devices access pairs hok
  exact ⟨h1, h2, h3, h4, h5⟩

/-- Witness for C2: two devices with no P2P connectivity; the fallback
phase pairs them and the planner returns the two-node tree. -/
theorem compute_tree_wellformed_witness :
    ([0, 1] : List ℤ) ≠ [] ∧
    (([DevicePair.mk (-1) 0, DevicePair.mk 0 1].headD
      (DevicePair.mk 0 0)).parent = -1 ∧
    ([DevicePair.mk (-1) 0, DevicePair.mk 0 1] : List DevicePair).length =
      ([0, 1] : List ℤ).length ∧
    (([DevicePair.mk (-1) 0, DevicePair.mk 0 1].map
      DevicePair.device).Perm [0, 1]) ∧
    (∀ p ∈ [DevicePair.mk (-1) 0, DevicePair.mk 0 1],
      p.parent ≠ p.device) ∧
    (∀ p ∈ [DevicePair.mk (-1) 0, DevicePair.mk 0 1], p.parent ≠ -1 →
      ∃ q ∈ [DevicePair.mk (-1) 0, DevicePair.mk 0 1],
        q.device = p.parent)) :=
  ⟨by decide,
   compute_tree_wellformed [0, 1] (fun _ _ => false)
     [DevicePair.mk (-1) 0, DevicePair.mk 0 1] (by decide) rfl⟩

/-! ## Fallback phase bounds (C3) -/

/-- Counterexample to claim C3 as stated: with three devices and no
peer-to-peer connectivity the P2P phase pairs nothing, the fallback
phase receives `remaining = [0, 1, 2]`, its first sweep pairs (0, 1) and
erases device 1, and at `i = 1` the loop guard `1 < 2` still admits the
body, which then reads `remaining[2]` one past the end of the two-element
vector — the out-of-range branch is reached. -/
theorem fallback_oob_counterexample :
    (p2pPhase (fun _ _ => false) (clog2 3) [0, 1, 2] []).1 = [0, 1, 2] ∧
    fallbackPhase (clog2 3) [0, 1, 2] [] = none ∧
    DevicePair.compute [0, 1, 2] (fun _ _ => false) =
      Except.error ComputeError.oobAccess :=
  ⟨rfl, rfl, rfl⟩

theorem fallbackPass_even : ∀ (fuel : ℕ) (rem : List ℤ) (i : ℕ)
    (pairs : List DevicePair),
    i ≤ rem.length → (rem.length - i) % 2 = 0 → rem.length - i ≤ 2 * fuel →
    ∃ rem2 pairs2, fallbackPass fuel rem i pairs = some (rem2, pairs2) ∧
      rem2.length = rem.length - (rem.length - i) / 2 := by
  intro fuel
  induction fuel with
  | zero =>
      intro rem i pairs hle hev hf
      have hi : i = rem.length := by omega
      refine ⟨rem, pairs, ?_, by omega⟩
      rw [fallbackPass]
  | succ f ih =>
      intro rem i pairs hle hev hf
      rw [fallbackPass]
      by_cases hi : i < rem.length
      · rw [dif_pos hi]
        have hi1 : i + 1 < rem.length := by omega
        rw [List.getElem?_eq_getElem hi1]
        have hlen : (rem.eraseIdx (i + 1)).length = rem.length - 1 := by
          rw [List.length_eraseIdx]
          simp [hi1]
        obtain ⟨rem2, pairs2, heq, hl2⟩ := ih (rem.eraseIdx (i + 1)) (i + 1)
          (pairs ++ [DevicePair.mk (rem.get ⟨i, hi⟩) (rem.get ⟨i + 1, hi1⟩)])
          (by omega) (by omega) (by omega)
        refine ⟨rem2, pairs2, ?_, ?_⟩
        · rw [← heq]
          rfl
        · rw [hl2, hlen]
          omega
      · rw [dif_neg hi]
        have : i = rem.length := by omega
        exact ⟨rem, pairs, rfl, by omega⟩

theorem fallbackPhase_pow2 : ∀ (k : ℕ) (rem : List ℤ)
    (pairs : List DevicePair), rem.length = 2 ^ k →
    ∃ rem2 pairs2, fallbackPhase k rem pairs = some (rem2, pairs2) ∧
      rem2.length = 1 := by
  intro k
  induction k with
  | zero =>
      intro rem pairs hlen
      exact ⟨rem, pairs, rfl, by simpa using hlen⟩
  | succ k ih =>
      intro rem pairs hlen
      obtain ⟨rem1, pairs1, heq1, hl1⟩ := fallbackPass_even rem.length rem 0
        pairs (by omega) (by rw [hlen]; omega)
        (by omega)
      have hl1p : rem1.length = 2 ^ k := by
        rw [hl1, hlen]
        have h1 : (2 : ℕ) ^ (k + 1) = 2 * 2 ^ k := by ring
        omega
      obtain ⟨rem2, pairs2, heq2, hl2⟩ := ih rem1 pairs1 hl1p
      refine ⟨rem2, pairs2, ?_, hl2⟩
      rw [fallbackPhase, heq1]
      exact heq2

/-- Claim C3 amended: the accesses `remaining[i + 1]` of the fallback
phase stay within the bounds of the `remaining` vector whenever the
number of devices left unpaired by the earlier phases is a power of two
(1, 2, 4, ...); for other sizes — in particular three devices with no
peer-to-peer connectivity — the phase reads one element past the end of
the vector. -/
theorem fallback_inbounds_pow2 (rem : List ℤ) (pairs : List DevicePair)
    (k : ℕ) (hlen : rem.length = 2 ^ k) :
    fallbackPhase (clog2 rem.length) rem pairs ≠ none := by
  have hc : clog2 rem.length = k := by
    rw [clog2_eq_clog, hlen, Nat.clog_pow 2 k (by norm_num)]
  rw [hc]
  obtain ⟨rem2, pairs2, heq, _⟩ := fallbackPhase_pow2 k rem pairs hlen
  rw [heq]
  exact Option.some_ne_none _

/-- Witness for the amended C3: two unpaired devices are handled fully
in bounds. -/
theorem fallback_inbounds_pow2_witness :
    fallbackPhase (clog2 ([5, 7] : List ℤ).length) [5, 7] [] ≠ none :=
  fallback_inbounds_pow2 [5, 7] [] 1 (by decide)

/-! ## Coordinator entry: `P2PSync::Run` (C5)

`Run` (`parallel.cpp:422-443`) allocates the `syncs` vector, calls
`Prepare` — whose first action is `DevicePair::compute`, the only place
where a malformed device list can stop the run — then constructs the
tree, starts one worker thread per non-root replica, runs the root
solver on the calling thread and finally joins the workers. The
embedding records the planner outcome and the number of worker threads
`Run` would start (`syncs.size() - 1`). -/

/-- Outcome of the coordinator entry point: the planner output together
with the number of worker threads started for non-root replicas. -/
structure RunResult where
  pairs : List DevicePair
  workersSpawned : ℕ
deriving DecidableEq

/-- Embedding of `P2PSync::Run` up to the point where replicas are
constructed and worker threads spawned: the device list only passes
through `DevicePair::compute` (via `Prepare`); no other validation is
performed before construction begins. -/
def P2PSync.Run (gpus : List ℤ) (access : ℤ → ℤ → Bool) :
    Except ComputeError RunResult :=
  match DevicePair.compute gpus access with
  | Except.error e => Except.error e
  | Except.ok pairs => Except.ok (RunResult.mk pairs (gpus.length - 1))

/-- Whether the run was stopped (by a CHECK abort or undefined
out-of-bounds read inside the planner) before any replica was
constructed or any worker thread spawned. -/
def rejectedAtEntry : Except ComputeError RunResult → Bool
  | Except.ok _ => false
  | Except.error _ => true

/-- Counterexample to claim C5 as stated: a single-device list is not
rejected at coordinator entry — the planner returns the one-node tree
`[(-1, 0)]`, `Run` constructs no child replica, spawns zero worker
threads and proceeds to run the root solver on the calling thread. -/
theorem run_single_device_counterexample :
    P2PSync.Run [0] (fun _ _ => false) =
      Except.ok (RunResult.mk [DevicePair.mk (-1) 0] 0) ∧
    rejectedAtEntry (P2PSync.Run [0] (fun _ _ => false)) = false :=
  ⟨rfl, rfl⟩

/-- Claim C5 amended: a call to `Run` whose device list is empty or
contains a duplicate device id is rejected inside the planner — before
any replica is constructed or worker thread spawned — while a
single-device list is accepted and proceeds to train on the root alone. -/
theorem run_rejects_empty_or_duplicate (gpus : List ℤ)
    (access : ℤ → ℤ → Bool) (h : gpus = [] ∨ ¬ gpus.Nodup) :
    rejectedAtEntry (P2PSync.Run gpus access) = true := by
  cases hc : DevicePair.compute gpus access with
  | error e =>
      unfold P2PSync.Run
      rw [hc]
      rfl
  | ok pairs =>
      exfalso
      obtain ⟨_, _, hperm, _, _, hdist⟩ := compute_ok_struct gpus access
        pairs hc
      have hnd : (pairs.map DevicePair.device).Nodup := by
        unfold List.Nodup
        rw [List.pairwise_map]
        exact hdist
      have hgnd : gpus.Nodup := hperm.nodup_iff.mp hnd
      rcases h with h | h
      · subst h
        have : pairs.length = 0 := by simpa using hperm.length_eq
        have hbad : DevicePair.compute [] access =
            Except.error ComputeError.checkFail := rfl
        rw [hbad] at hc
        exact absurd hc (by simp)
      · exact h hgnd

/-- Witness for the amended C5: a duplicated device id is rejected. -/
theorem run_rejects_duplicate_witness :
    rejectedAtEntry (P2PSync.Run [0, 0] (fun _ _ => false)) = true :=
  run_rejects_empty_or_duplicate [0, 0] (fun _ _ => false)
    (Or.inr (by decide))

/-! ## Gradient gather round (C1)

One complete gather round of `P2PSync::on_gradients_ready`
(`parallel.cpp:326-382`): every node pops each of its children from its
mailbox and accumulates that child's `parent_grads_` buffer (which holds
the child's `diff_` after the child's own `on_gradients_ready`
completed, copied by the child at `parallel.cpp:372-374` before the
push) into its own `diff_` with `caffe_gpu_add`; the root then scales
its `diff_` by `1 / Caffe::solver_count()`. Children are popped in
mailbox arrival order, which is some permutation of the children list
(the DEBUG block checks every popped sender is a child); since addition
of rationals is commutative the accumulated value does not depend on
that order, and the embedding folds over the children list. -/

/-- Embedding of `caffe_gpu_add(size, src, dst, dst)` as called at
`parallel.cpp:356`: element-wise addition on the first `size` elements
of the buffers. -/
def gpu_add (size : ℕ) (src dst : ℕ → ℚ) : ℕ → ℚ :=
  fun k => if k < size then src k + dst k else dst k

/-- Embedding of `caffe_gpu_scal(size, alpha, buf)` as called at
`parallel.cpp:379`. -/
def gpu_scal (size : ℕ) (alpha : ℚ) (buf : ℕ → ℚ) : ℕ → ℚ :=
  fun k => if k < size then alpha * buf k else buf k

/-- An in-tree of replicas for one gather round: each node carries the
local gradient its driver computed (the contents of `diff_` on entry to
`on_gradients_ready`, before any child is reduced) and its children. -/
inductive SyncTree where
  | node (diff : ℕ → ℚ) (children : List SyncTree)

mutual

/-- Value of a node's `diff_` buffer when its `on_gradients_ready`
finishes the child-reduction loop: its local gradient plus, by
`caffe_gpu_add`, each child's gathered gradient. -/
def gatherDiff (size : ℕ) : SyncTree → ℕ → ℚ
  | SyncTree.node diff children => gatherChildren size children diff

/-- Child-reduction loop of `on_gradients_ready`
(`parallel.cpp:336-357`): accumulate each child's `parent_grads_`
(the child's gathered gradient) into the accumulator buffer. -/
def gatherChildren (size : ℕ) : List SyncTree → (ℕ → ℚ) → ℕ → ℚ
  | [], acc => acc
  | c :: cs, acc => gatherChildren size cs (gpu_add size (gatherDiff size c) acc)

end

mutual

/-- Local gradients of all replicas of the tree, root first. -/
def localDiffs : SyncTree → List (ℕ → ℚ)
  | SyncTree.node diff children => diff :: localDiffsList children

/-- Local gradients of all replicas in a forest. -/
def localDiffsList : List SyncTree → List (ℕ → ℚ)
  | [] => []
  | c :: cs => localDiffs c ++ localDiffsList cs

end

/-- Element `k` of the element-wise sum of a list of buffers. -/
def sumAt (fs : List (ℕ → ℚ)) (k : ℕ) : ℚ := (fs.map fun f => f k).sum

/-- Number of replicas in the tree, the value of
`Caffe::solver_count()`. -/
def SyncTree.count (t : SyncTree) : ℕ := (localDiffs t).length

/-- Contents of the root's `diff_` buffer after one complete gather
round: the gathered sum scaled by `1 / solver_count` at
`parallel.cpp:379`. -/
def rootFinalDiff (size : ℕ) (t : SyncTree) : ℕ → ℚ :=
  gpu_scal size (1 / (SyncTree.count t : ℚ)) (gatherDiff size t)

/-- Induction over `SyncTree` with the hypothesis available for every
member of the children list. -/
theorem SyncTree.indOn (P : SyncTree → Prop)
    (h : ∀ d cs, (∀ c ∈ cs, P c) → P (SyncTree.node d cs)) : ∀ t, P t :=
  fun t =>
    match t with
    | SyncTree.node d cs => h d cs (fun c hc => SyncTree.indOn P h c)

theorem sumAt_append (fs gs : List (ℕ → ℚ)) (k : ℕ) :
    sumAt (fs ++ gs) k = sumAt fs k + sumAt gs k := by
  unfold sumAt
  rw [List.map_append, List.sum_append]

theorem gatherChildren_eq (size : ℕ) : ∀ cs : List SyncTree,
    (∀ c ∈ cs, ∀ k, k < size → gatherDiff size c k = sumAt (localDiffs c) k) →
    ∀ acc k, k < size →
    gatherChildren size cs acc k = acc k + sumAt (localDiffsList cs) k := by
  intro cs
  induction cs with
  | nil =>
      intro hmem acc k hk
      simp [gatherChildren, localDiffsList, sumAt]
  | cons c rest ih =>
      intro hmem acc k hk
      rw [gatherChildren,
        ih (fun x hx => hmem x (List.mem_cons_of_mem c hx)) _ k hk,
        localDiffsList, sumAt_append]
      unfold gpu_add
      rw [if_pos hk, hmem c (List.mem_cons_self c rest) k hk]
      ring

theorem gatherDiff_eq_sum (size : ℕ) : ∀ t : SyncTree, ∀ k, k < size →
    gatherDiff size t k = sumAt (localDiffs t) k := by
  refine SyncTree.indOn _ ?_
  intro d cs hmem k hk
  rw [gatherDiff, gatherChildren_eq size cs hmem d k hk, localDiffs]
  unfold sumAt
  rw [List.map_cons, List.sum_cons]

/-- Claim C1: after one complete gather round over any in-tree of
replicas, each element of the root's `diff_` equals `1 / N` times the
element-wise sum of all `N` replicas' local gradients. -/
theorem gradient_conservation (size : ℕ) (t : SyncTree) (k : ℕ)
    (hk : k < size) :
    rootFinalDiff size t k =
      (1 / (SyncTree.count t : ℚ)) * sumAt (localDiffs t) k := by
  unfold rootFinalDiff gpu_scal
  rw [if_pos hk, gatherDiff_eq_sum size t k hk]

/-- Witness for C1: a two-replica tree with constant local gradients 2
and 4. -/
theorem gradient_conservation_witness :
    0 < 1 ∧ rootFinalDiff 1
        (SyncTree.node (fun _ => 2) [SyncTree.node (fun _ => 4) []]) 0 =
      (1 / (SyncTree.count (SyncTree.node (fun _ => 2)
          [SyncTree.node (fun _ => 4) []]) : ℚ)) *
        sumAt (localDiffs (SyncTree.node (fun _ => 2)
          [SyncTree.node (fun _ => 4) []])) 0 :=
  ⟨by decide,
   gradient_conservation 1
     (SyncTree.node (fun _ => 2) [SyncTree.node (fun _ => 4) []]) 0
     (by decide)⟩

/-! ## Coordinator tree construction: `P2PSync::Prepare` (C4)

`Prepare` (`parallel.cpp:384-420`) plans the pairs, then sweeps up to
`pairs.size()` times over `pairs[1..N)`; each sweep constructs, for
every still-empty slot `i` whose parent device is already present in a
filled slot (or is the root `this` in slot 0), a replica on device
`pairs[i].device` and registers it in the parent's children list. The
state records, per slot, the constructed replica's parent slot and
device id, plus the ordered log of `children_.push_back` registrations
as (parent slot, child slot) events. -/

/-- Element `i` of the planner output, `pairs[i]` in the source (all
accesses are within bounds in `Prepare`). -/
def pairAt (pairs : List DevicePair) (i : ℕ) : DevicePair :=
  pairs.getD i (DevicePair.mk 0 0)

/-- What the coordinator records when it constructs replica `i`: the
slot index of its parent and its own device id (the source sets
`param.set_device_id(pairs[i].device)` before constructing). -/
structure SlotInfo where
  parentSlot : ℕ
  device : ℤ
deriving DecidableEq

/-- Coordinator state: the `syncs` vector (slot 0 stays empty — the
root is the calling object `this`) and the log of child
registrations. -/
structure PrepState where
  slots : List (Option SlotInfo)
  childEvents : List (ℕ × ℕ)
deriving DecidableEq

/-- Device id slot `j` exposes through
`sync->solver()->param().device_id()` during the parent search: slot 0
is the root `this` with device `rootDev`; another slot answers only if
filled. -/
def slotDevice (rootDev : ℤ) (slots : List (Option SlotInfo)) (j : ℕ) :
    Option ℤ :=
  if j = 0 then some rootDev
  else
    match slots.getD j none with
    | some info => some info.device
    | none => none

/-- Body of the parent search loop for slot `j`: a filled slot holding
the target device overwrites the candidate parent. -/
def parentScanStep (rootDev : ℤ) (slots : List (Option SlotInfo))
    (target : ℤ) (acc : Option ℕ) (j : ℕ) : Option ℕ :=
  match slotDevice rootDev slots j with
  | some d => if d = target then some j else acc
  | none => acc

/-- Parent search loop (`parallel.cpp:402-411`): scan all slots and
remember the LAST filled one whose device equals the target (the source
keeps overwriting `parent`). -/
def findParentSlot (rootDev : ℤ) (slots : List (Option SlotInfo))
    (target : ℤ) : Option ℕ :=
  (List.range slots.length).foldl (parentScanStep rootDev slots target) none

/-- Sweep body for slot `i` (`parallel.cpp:401-417`): if slot `i` is
still empty and the parent search finds `pairs[i].parent`, construct
replica `i` with device `pairs[i].device` and push it onto the parent's
children. -/
def sweepStep (pairs : List DevicePair) (rootDev : ℤ) (st : PrepState)
    (i : ℕ) : PrepState :=
  match st.slots.getD i none with
  | some _ => st
  | none =>
      match findParentSlot rootDev st.slots (pairAt pairs i).parent with
      | some p =>
          PrepState.mk
            (st.slots.set i (some (SlotInfo.mk p (pairAt pairs i).device)))
            (st.childEvents ++ [(p, i)])
      | none => st

/-- One sweep over `pairs[1..N)` (`parallel.cpp:400`). -/
def sweep (pairs : List DevicePair) (rootDev : ℤ) (st : PrepState) :
    PrepState :=
  (List.range' 1 (pairs.length - 1)).foldl (sweepStep pairs rootDev) st

/-- Iterated sweeps: the `attempts` loop (`parallel.cpp:399`) performs
`pairs.size()` sweeps. -/
def sweeps (pairs : List DevicePair) (rootDev : ℤ) :
    ℕ → PrepState → PrepState
  | 0, st => st
  | n + 1, st => sweep pairs rootDev (sweeps pairs rootDev n st)

/-- Embedding of the tree-building part of `P2PSync::Prepare`
(`parallel.cpp:396-419`), starting from an all-empty `syncs` vector of
size `pairs.size()`. -/
def P2PSync.Prepare (pairs : List DevicePair) (rootDev : ℤ) : PrepState :=
  sweeps pairs rootDev pairs.length
    (PrepState.mk (List.replicate pairs.length none) [])

/-- Slot `i` reaches the root slot 0 in at most `k` parent-device
steps: the in-tree hypothesis of claim C4. -/
def reachesIn (pairs : List DevicePair) : ℕ → ℕ → Bool
  | 0, i => decide (i = 0)
  | k + 1, i =>
      decide (i = 0) ||
      (List.range pairs.length).any fun j =>
        decide ((pairAt pairs j).device = (pairAt pairs i).parent) &&
        reachesIn pairs k j

theorem getD_set_self (l : List (Option SlotInfo)) (i : ℕ)
    (v : Option SlotInfo) (h : i < l.length) : (l.set i v).getD i none = v := by
  rw [List.getD_eq_getElem?_getD, List.getElem?_set, if_pos rfl, if_pos h]
  rfl

theorem getD_set_ne (l : List (Option SlotInfo)) (i j : ℕ)
    (v : Option SlotInfo) (h : i ≠ j) :
    (l.set i v).getD j none = l.getD j none := by
  rw [List.getD_eq_getElem?_getD, List.getElem?_set, if_neg h,
    ← List.getD_eq_getElem?_getD]

theorem parentScanStep_some (rootDev target : ℤ)
    (slots : List (Option SlotInfo)) (acc : Option ℕ) (j : ℕ) (d : ℤ)
    (h : slotDevice rootDev slots j = some d) :
    parentScanStep rootDev slots target acc j =
      if d = target then some j else acc := by
  unfold parentScanStep
  rw [h]

theorem parentScanStep_none (rootDev target : ℤ)
    (slots : List (Option SlotInfo)) (acc : Option ℕ) (j : ℕ)
    (h : slotDevice rootDev slots j = none) :
    parentScanStep rootDev slots target acc j = acc := by
  unfold parentScanStep
  rw [h]

theorem parentScan_spec (rootDev target : ℤ)
    (slots : List (Option SlotInfo)) :
    ∀ (l : List ℕ) (acc : Option ℕ),
    (∀ j ∈ l, j < slots.length) →
    (∀ q, acc = some q → q < slots.length ∧
      slotDevice rootDev slots q = some target) →
    ∀ p, l.foldl (parentScanStep rootDev slots target) acc = some p →
    p < slots.length ∧ slotDevice rootDev slots p = some target := by
  intro l
  induction l with
  | nil => intro acc hmem hacc p hp; exact hacc p hp
  | cons j rest ih =>
      intro acc hmem hacc p hp
      rw [List.foldl_cons] at hp
      refine ih _ (fun x hx => hmem x (List.mem_cons_of_mem j hx)) ?_ p hp
      intro q hq
      cases hsd : slotDevice rootDev slots j with
      | none =>
          rw [parentScanStep_none rootDev target slots acc j hsd] at hq
          exact hacc q hq
      | some d =>
          rw [parentScanStep_some rootDev target slots acc j d hsd] at hq
          by_cases hd : d = target
          · rw [if_pos hd] at hq
            have hqj : q = j := by simpa using hq.symm
            subst hqj
            exact ⟨hmem q (List.mem_cons_self q rest), by rw [hsd, hd]⟩
          · rw [if_neg hd] at hq
            exact hacc q hq

theorem findParentSlot_spec (rootDev target : ℤ)
    (slots : List (Option SlotInfo)) (p : ℕ)
    (h : findParentSlot rootDev slots target = some p) :
    p < slots.length ∧ slotDevice rootDev slots p = some target := by
  refine parentScan_spec rootDev target slots (List.range slots.length) none
    ?_ ?_ p h
  · intro j hj
    exact List.mem_range.mp hj
  · intro q hq
    exact absurd hq (by simp)

theorem parentScan_isSome (rootDev target : ℤ)
    (slots : List (Option SlotInfo)) :
    ∀ (l : List ℕ) (acc : Option ℕ), acc.isSome = true →
    (l.foldl (parentScanStep rootDev slots target) acc).isSome = true := by
  intro l
  induction l with
  | nil => intro acc h; exact h
  | cons j rest ih =>
      intro acc h
      rw [List.foldl_cons]
      refine ih _ ?_
      cases hsd : slotDevice rootDev slots j with
      | none =>
          rw [parentScanStep_none rootDev target slots acc j hsd]
          exact h
      | some d =>
          rw [parentScanStep_some rootDev target slots acc j d hsd]
          by_cases hd : d = target
          · rw [if_pos hd]; rfl
          · rw [if_neg hd]; exact h

theorem findParentSlot_complete (rootDev target : ℤ)
    (slots : List (Option SlotInfo)) (j : ℕ) (hj : j < slots.length)
    (hdev : slotDevice rootDev slots j = some target) :
    (findParentSlot rootDev slots target).isSome = true := by
  unfold findParentSlot
  obtain ⟨s, t, hst⟩ := List.append_of_mem (List.mem_range.mpr hj)
  rw [hst, List.foldl_append, List.foldl_cons]
  apply parentScan_isSome
  rw [parentScanStep_some rootDev target slots _ j target hdev, if_pos rfl]
  rfl

theorem sweepStep_slots_length (pairs : List DevicePair) (rootDev : ℤ)
    (st : PrepState) (i : ℕ) :
    (sweepStep pairs rootDev st i).slots.length = st.slots.length := by
  unfold sweepStep
  split
  · rfl
  · split
    · simp
    · rfl

theorem sweepStep_mono (pairs : List DevicePair) (rootDev : ℤ)
    (st : PrepState) (i : ℕ) {j : ℕ} {info : SlotInfo}
    (h : st.slots.getD j none = some info) :
    (sweepStep pairs rootDev st i).slots.getD j none = some info := by
  unfold sweepStep
  split
  · exact h
  · next hslot =>
      split
      · have hne : i ≠ j := by
          intro he
          subst he
          rw [hslot] at h
          exact absurd h (by simp)
        rw [getD_set_ne _ _ _ _ hne]
        exact h
      · exact h

theorem sweepStep_events_mono (pairs : List DevicePair) (rootDev : ℤ)
    (st : PrepState) (i : ℕ) {e : ℕ × ℕ} (h : e ∈ st.childEvents) :
    e ∈ (sweepStep pairs rootDev st i).childEvents := by
  unfold sweepStep
  split
  · exact h
  · split
    · exact List.mem_append_left _ h
    · exact h

/-- Invariant of the coordinator state throughout the sweeps: the
`syncs` vector keeps its size; slot 0 stays empty (the root is `this`);
every filled slot `i ≥ 1` holds device `pairs[i].device`, a parent slot
whose pair device equals `pairs[i].parent`, and exactly one child
registration, which names that parent slot; an empty slot has no child
registration. -/
def GoodState (pairs : List DevicePair) (st : PrepState) : Prop :=
  st.slots.length = pairs.length ∧
  st.slots.getD 0 none = none ∧
  (∀ j info, st.slots.getD j none = some info →
    1 ≤ j ∧ j < pairs.length ∧
    info.device = (pairAt pairs j).device ∧
    info.parentSlot < pairs.length ∧
    (pairAt pairs info.parentSlot).device = (pairAt pairs j).parent ∧
    st.childEvents.countP (fun e => decide (e.2 = j)) = 1 ∧
    (info.parentSlot, j) ∈ st.childEvents) ∧
  (∀ j, st.slots.getD j none = none →
    st.childEvents.countP (fun e => decide (e.2 = j)) = 0)

theorem sweepStep_good (pairs : List DevicePair) (rootDev : ℤ)
    (hroot : rootDev = (pairAt pairs 0).device)
    (st : PrepState) (i : ℕ) (h1 : 1 ≤ i) (hi : i < pairs.length)
    (hg : GoodState pairs st) :
    GoodState pairs (sweepStep pairs rootDev st i) := by
  obtain ⟨hlen, h0, hfill, hempty⟩ := hg
  unfold sweepStep
  split
  · exact ⟨hlen, h0, hfill, hempty⟩
  · next hslot =>
      split
      · next p hfind =>
          obtain ⟨hp, hpd⟩ := findParentSlot_spec rootDev _ st.slots p hfind
          have hpdev : (pairAt pairs p).device = (pairAt pairs i).parent := by
            unfold slotDevice at hpd
            by_cases hp0 : p = 0
            · subst hp0
              rw [if_pos rfl] at hpd
              rw [← hroot]
              exact Option.some.inj hpd
            · rw [if_neg hp0] at hpd
              cases hgp : st.slots.getD p none with
              | none => rw [hgp] at hpd; exact absurd hpd (by simp)
              | some pin =>
                  rw [hgp] at hpd
                  obtain ⟨_, _, hdev, _, _, _, _⟩ := hfill p pin hgp
                  rw [← hdev]
                  exact Option.some.inj hpd
          have hilen : i < st.slots.length := by rw [hlen]; exact hi
          refine ⟨by simpa using hlen, ?_, ?_, ?_⟩
          · rw [getD_set_ne _ _ _ _ (by omega)]
            exact h0
          · intro j info hj
            by_cases hji : j = i
            · subst hji
              rw [getD_set_self _ _ _ hilen] at hj
              have hinfo : info = SlotInfo.mk p (pairAt pairs j).device := by
                simpa using hj.symm
              subst hinfo
              refine ⟨h1, hi, rfl, by rw [hlen] at hp; exact hp, hpdev, ?_, ?_⟩
              · rw [List.countP_append, hempty j hslot]
                simp
              · exact List.mem_append_right _ (by simp)
            · rw [getD_set_ne _ _ _ _ (fun he => hji he.symm)] at hj
              obtain ⟨ha, hb, hc, hd, he, hcount, hmem⟩ := hfill j info hj
              refine ⟨ha, hb, hc, hd, he, ?_, List.mem_append_left _ hmem⟩
              rw [List.countP_append, hcount]
              have : List.countP (fun e => decide (e.2 = j)) [(p, i)] = 0 := by
                simp [hji]
                omega
              rw [this]
          · intro j hj
            by_cases hji : j = i
            · subst hji
              rw [getD_set_self _ _ _ hilen] at hj
              exact absurd hj (by simp)
            · rw [getD_set_ne _ _ _ _ (fun he => hji he.symm)] at hj
              rw [List.countP_append, hempty j hj]
              have : List.countP (fun e => decide (e.2 = j)) [(p, i)] = 0 := by
                simp [hji]
                omega
              rw [this]
      · exact ⟨hlen, h0, hfill, hempty⟩

theorem sweepStep_eq_filled (pairs : List DevicePair) (rootDev : ℤ)
    (st : PrepState) (i : ℕ) (info : SlotInfo)
    (h : st.slots.getD i none = some info) :
    sweepStep pairs rootDev st i = st := by
  unfold sweepStep
  rw [h]

theorem sweepStep_eq_found (pairs : List DevicePair) (rootDev : ℤ)
    (st : PrepState) (i p : ℕ)
    (h1 : st.slots.getD i none = none)
    (h2 : findParentSlot rootDev st.slots (pairAt pairs i).parent = some p) :
    sweepStep pairs rootDev st i =
      PrepState.mk
        (st.slots.set i (some (SlotInfo.mk p (pairAt pairs i).device)))
        (st.childEvents ++ [(p, i)]) := by
  unfold sweepStep
  rw [h1, h2]

theorem foldl_sweepStep_good (pairs : List DevicePair) (rootDev : ℤ)
    (hroot : rootDev = (pairAt pairs 0).device) :
    ∀ (l : List ℕ) (st : PrepState),
    (∀ x ∈ l, 1 ≤ x ∧ x < pairs.length) → GoodState pairs st →
    GoodState pairs (l.foldl (sweepStep pairs rootDev) st) := by
  intro l
  induction l with
  | nil => intro st hmem hg; exact hg
  | cons x rest ih =>
      intro st hmem hg
      rw [List.foldl_cons]
      refine ih _ (fun y hy => hmem y (List.mem_cons_of_mem x hy)) ?_
      obtain ⟨hx1, hx2⟩ := hmem x (List.mem_cons_self x rest)
      exact sweepStep_good pairs rootDev hroot st x hx1 hx2 hg

theorem sweep_good (pairs : List DevicePair) (rootDev : ℤ)
    (hroot : rootDev = (pairAt pairs 0).device) (st : PrepState)
    (hg : GoodState pairs st) :
    GoodState pairs (sweep pairs rootDev st) := by
  unfold sweep
  refine foldl_sweepStep_good pairs rootDev hroot _ st ?_ hg
  intro x hx
  have := List.mem_range'_1.mp hx
  omega

theorem sweeps_good (pairs : List DevicePair) (rootDev : ℤ)
    (hroot : rootDev = (pairAt pairs 0).device) :
    ∀ (k : ℕ) (st : PrepState), GoodState pairs st →
    GoodState pairs (sweeps pairs rootDev k st) := by
  intro k
  induction k with
  | zero => intro st hg; exact hg
  | succ n ih =>
      intro st hg
      exact sweep_good pairs rootDev hroot _ (ih st hg)

theorem foldl_sweepStep_mono (pairs : List DevicePair) (rootDev : ℤ) :
    ∀ (l : List ℕ) (st : PrepState) (j : ℕ) (info : SlotInfo),
    st.slots.getD j none = some info →
    (l.foldl (sweepStep pairs rootDev) st).slots.getD j none = some info := by
  intro l
  induction l with
  | nil => intro st j info h; exact h
  | cons x rest ih =>
      intro st j info h
      rw [List.foldl_cons]
      exact ih _ j info (sweepStep_mono pairs rootDev st x h)

theorem foldl_sweepStep_length (pairs : List DevicePair) (rootDev : ℤ) :
    ∀ (l : List ℕ) (st : PrepState),
    (l.foldl (sweepStep pairs rootDev) st).slots.length =
      st.slots.length := by
  intro l
  induction l with
  | nil => intro st; rfl
  | cons x rest ih =>
      intro st
      rw [List.foldl_cons, ih, sweepStep_slots_length]

theorem slotDevice_foldl_mono (pairs : List DevicePair) (rootDev : ℤ)
    (l : List ℕ) (st : PrepState) (j : ℕ) (d : ℤ)
    (h : slotDevice rootDev st.slots j = some d) :
    slotDevice rootDev (l.foldl (sweepStep pairs rootDev) st).slots j =
      some d := by
  unfold slotDevice at h ⊢
  by_cases hj0 : j = 0
  · rw [if_pos hj0] at h ⊢
    exact h
  · rw [if_neg hj0] at h ⊢
    cases hg : st.slots.getD j none with
    | none => rw [hg] at h; exact absurd h (by simp)
    | some info =>
        rw [hg] at h
        rw [foldl_sweepStep_mono pairs rootDev l st j info hg]
        exact h

theorem sweep_fills (pairs : List DevicePair) (rootDev : ℤ)
    (st : PrepState) (i : ℕ) (h1 : 1 ≤ i) (hi : i < pairs.length)
    (hlen : st.slots.length = pairs.length) (j : ℕ)
    (hj : j < st.slots.length)
    (hdev : slotDevice rootDev st.slots j = some (pairAt pairs i).parent) :
    ∃ info, (sweep pairs rootDev st).slots.getD i none = some info := by
  have hmem : i ∈ List.range' 1 (pairs.length - 1) :=
    List.mem_range'_1.mpr ⟨h1, by omega⟩
  obtain ⟨s, t, hst⟩ := List.append_of_mem hmem
  unfold sweep
  rw [hst, List.foldl_append, List.foldl_cons]
  have hdev1 : slotDevice rootDev
      (s.foldl (sweepStep pairs rootDev) st).slots j =
      some (pairAt pairs i).parent :=
    slotDevice_foldl_mono pairs rootDev s st j _ hdev
  have hlen1 : (s.foldl (sweepStep pairs rootDev) st).slots.length =
      st.slots.length := foldl_sweepStep_length pairs rootDev s st
  cases hs : (s.foldl (sweepStep pairs rootDev) st).slots.getD i none with
  | some info =>
      rw [sweepStep_eq_filled pairs rootDev _ i info hs]
      exact ⟨info, foldl_sweepStep_mono pairs rootDev t _ i info hs⟩
  | none =>
      have hfind : (findParentSlot rootDev
          (s.foldl (sweepStep pairs rootDev) st).slots
          (pairAt pairs i).parent).isSome = true :=
        findParentSlot_complete rootDev _ _ j (by omega) hdev1
      obtain ⟨p, hp⟩ := Option.isSome_iff_exists.mp hfind
      rw [sweepStep_eq_found pairs rootDev _ i p hs hp]
      refine ⟨SlotInfo.mk p (pairAt pairs i).device,
        foldl_sweepStep_mono pairs rootDev t _ i _ ?_⟩
      exact getD_set_self _ _ _ (by omega)

theorem sweeps_fill (pairs : List DevicePair) (rootDev : ℤ)
    (hroot : rootDev = (pairAt pairs 0).device) :
    ∀ (k : ℕ) (st : PrepState), GoodState pairs st →
    ∀ i, 1 ≤ i → i < pairs.length → reachesIn pairs k i = true →
    ∃ info, (sweeps pairs rootDev k st).slots.getD i none = some info := by
  intro k
  induction k with
  | zero =>
      intro st hg i h1 hi hr
      rw [reachesIn] at hr
      have : i = 0 := by simpa using hr
      omega
  | succ k ih =>
      intro st hg i h1 hi hr
      rw [reachesIn] at hr
      simp only [Bool.or_eq_true, List.any_eq_true, Bool.and_eq_true,
        decide_eq_true_eq] at hr
      rcases hr with h0 | ⟨j, hjmem, hjdev2, hjreach⟩
      · omega
      · have hjN : j < pairs.length := List.mem_range.mp hjmem
        have hgk : GoodState pairs (sweeps pairs rootDev k st) :=
          sweeps_good pairs rootDev hroot k st hg
        have hNlen : (sweeps pairs rootDev k st).slots.length =
            pairs.length := hgk.1
        by_cases hj0 : j = 0
        · refine sweep_fills pairs rootDev _ i h1 hi hNlen 0 (by omega) ?_
          unfold slotDevice
          rw [if_pos rfl, hroot, ← hj0, hjdev2]
        · obtain ⟨info, hinfo⟩ := ih st hg j (by omega) hjN hjreach
          obtain ⟨_, _, hidev, _, _, _, _⟩ := hgk.2.2.1 j info hinfo
          refine sweep_fills pairs rootDev _ i h1 hi hNlen j (by omega) ?_
          unfold slotDevice
          rw [if_neg hj0, hinfo]
          show some info.device = some (pairAt pairs i).parent
          rw [hidev, hjdev2]

/-- Claim C4: if the planner's pair list describes an in-tree whose root
device occupies slot 0 (every slot reaches slot 0 along parent devices),
then after the `pairs.size()` sweeps of `Prepare`, every slot
`i ∈ 1..N-1` is filled with a replica whose device equals
`pairs[i].device`, whose recorded parent is a slot whose pair device
equals `pairs[i].parent`, and which was registered exactly once in that
parent's children list. -/
theorem prepare_builds_tree (pairs : List DevicePair) (rootDev : ℤ)
    (hroot : rootDev = (pairAt pairs 0).device)
    (hreach : ∀ i, i < pairs.length → reachesIn pairs pairs.length i = true)
    (i : ℕ) (h1 : 1 ≤ i) (hi : i < pairs.length) :
    ∃ p, (P2PSync.Prepare pairs rootDev).slots.getD i none =
        some (SlotInfo.mk p (pairAt pairs i).device) ∧
      p < pairs.length ∧
      (pairAt pairs p).device = (pairAt pairs i).parent ∧
      (P2PSync.Prepare pairs rootDev).childEvents.countP
        (fun e => decide (e.2 = i)) = 1 ∧
      (p, i) ∈ (P2PSync.Prepare pairs rootDev).childEvents := by
  have hg0 : GoodState pairs
      (PrepState.mk (List.replicate pairs.length none) []) := by
    refine ⟨by simp, ?_, ?_, ?_⟩
    · rw [List.getD_eq_getElem?_getD, List.getElem?_replicate]
      by_cases h : 0 < pairs.length
      · rw [if_pos h]; rfl
      · rw [if_neg h]; rfl
    · intro j info hj
      rw [List.getD_eq_getElem?_getD, List.getElem?_replicate] at hj
      by_cases h : j < pairs.length
      · rw [if_pos h] at hj; exact absurd hj (by simp)
      · rw [if_neg h] at hj; exact absurd hj (by simp)
    · intro j hj
      simp
  obtain ⟨info, hinfo⟩ := sweeps_fill pairs rootDev hroot pairs.length _ hg0
    i h1 hi (hreach i hi)
  have hgN : GoodState pairs (P2PSync.Prepare pairs rootDev) :=
    sweeps_good pairs rootDev hroot pairs.length _ hg0
  have hinfo2 : (P2PSync.Prepare pairs rootDev).slots.getD i none =
      some info := hinfo
  obtain ⟨_, _, hdev, hp, hpd, hcount, hmem⟩ := hgN.2.2.1 i info hinfo2
  refine ⟨info.parentSlot, ?_, hp, hpd, hcount, hmem⟩
  have hrepr : info = SlotInfo.mk info.parentSlot (pairAt pairs i).device := by
    cases info with
    | mk a b =>
        simp only [SlotInfo.mk.injEq]
        exact ⟨trivial, hdev⟩
  rw [← hrepr]
  exact hinfo2

/-- Witness for C4: three pairs given out of parent-before-child order
(slot 1 hangs off device 2, which is only built in the second sweep). -/
theorem prepare_builds_tree_witness :
    ∃ p, (P2PSync.Prepare
        [DevicePair.mk (-1) 0, DevicePair.mk 2 1, DevicePair.mk 0 2]
        0).slots.getD 1 none =
      some (SlotInfo.mk p (pairAt
        [DevicePair.mk (-1) 0, DevicePair.mk 2 1, DevicePair.mk 0 2]
        1).device) ∧
    p < ([DevicePair.mk (-1) 0, DevicePair.mk 2 1,
      DevicePair.mk 0 2] : List DevicePair).length ∧
    (pairAt [DevicePair.mk (-1) 0, DevicePair.mk 2 1, DevicePair.mk 0 2]
      p).device =
      (pairAt [DevicePair.mk (-1) 0, DevicePair.mk 2 1, DevicePair.mk 0 2]
        1).parent ∧
    (P2PSync.Prepare
      [DevicePair.mk (-1) 0, DevicePair.mk 2 1, DevicePair.mk 0 2]
      0).childEvents.countP (fun e => decide (e.2 = 1)) = 1 ∧
    (p, 1) ∈ (P2PSync.Prepare
      [DevicePair.mk (-1) 0, DevicePair.mk 2 1, DevicePair.mk 0 2]
      0).childEvents :=
  prepare_builds_tree
    [DevicePair.mk (-1) 0, DevicePair.mk 2 1, DevicePair.mk 0 2] 0
    (by decide) (by decide) 1 (by decide) (by decide)

end Caffe
